import Mathlib

/-!
Verification of the task-allocation engine of `tools/stress-testing/task_allocation_test.py`
(cocoon-gpu-pool). The Python classes `Task`, `Worker`, the three allocation strategies,
`TaskQueue`, and the metric functions of `TaskAllocationSimulator` are shallowly embedded:

* Python machine integers are modelled by `ℤ`/`ℕ` (no overflow is possible at the
  magnitudes the script uses);
* Python floats produced by `time.time()` are oracle inputs of type `ℚ` (wall-clock time
  is external input to the program), and float division in the metric functions is
  modelled by exact division in `ℚ`: at the small integer inputs considered below the
  float computation is exact, apart from the literals `0.2`/`0.05`, whose rounding error
  is far below the distance of every comparison performed here from its threshold;
* Python object mutation is modelled by returning the updated object; `list.sort`
  (a stable sort) is modelled by `List.mergeSort`, which is stable as well;
* `random.*` draws and the interleaving of the three `asyncio` loops are oracle inputs:
  the simulator is modelled as a state machine whose operation list chooses the
  interleaving and all random values, so theorems quantify over every schedule.
-/

set_option maxHeartbeats 1000000

namespace TaskAlloc

/-- Embeds class `Task`: `task_id` (the source formats the generation counter into the
string `task_{i:06d}`; we keep the counter itself), `priority`, `gpu_memory_required`,
`created_at` (a `time.time()` float, an oracle `ℚ`), and the initially-`None` fields
`allocated_at` and `worker_id`. -/
structure Task where
  task_id : ℕ
  priority : ℤ
  gpu_memory_required : ℤ
  created_at : ℚ
  allocated_at : Option ℚ := none
  worker_id : Option ℕ := none
deriving DecidableEq

/-- Embeds `Task.allocate_to_worker`: sets `worker_id` and stamps `allocated_at` with the
current time (oracle parameter `now`). -/
def Task.allocate_to_worker (t : Task) (wid : ℕ) (now : ℚ) : Task :=
  { t with worker_id := some wid, allocated_at := some now }

/-- Embeds class `Worker`: the constructor stores `worker_id` (source: the string
`worker_{i:04d}`; we keep the index), the fixed `gpu_memory`, mutable `available_memory`,
the `allocated_tasks` list, the `completed_tasks` counter and the `is_active` flag.
The constant string field `compute_capability` ("8.9") is never read and is omitted. -/
structure Worker where
  worker_id : ℕ
  gpu_memory : ℤ
  available_memory : ℤ
  allocated_tasks : List Task
  completed_tasks : ℕ
  is_active : Bool
deriving DecidableEq

instance : Inhabited Worker :=
  ⟨{ worker_id := 0, gpu_memory := 0, available_memory := 0, allocated_tasks := [],
     completed_tasks := 0, is_active := true }⟩

/-- Embeds `Worker.__init__`: `available_memory` starts at `gpu_memory` (the source's
default is 24576, which every caller passes explicitly here), no allocated tasks, zero
completed tasks, active. -/
def mkWorker (id : ℕ) (gpu_memory : ℤ) : Worker :=
  { worker_id := id, gpu_memory := gpu_memory, available_memory := gpu_memory,
    allocated_tasks := [], completed_tasks := 0, is_active := true }

/-- Embeds `Worker.can_accept_task`: `is_active and available_memory >= gpu_memory_required`. -/
def Worker.can_accept_task (w : Worker) (t : Task) : Bool :=
  w.is_active && decide (t.gpu_memory_required ≤ w.available_memory)

/-- Embeds `Worker.allocate_task`. On success the source appends the task object to
`allocated_tasks`, decrements `available_memory`, and then mutates that same task object
via `allocate_to_worker`; the stored task is therefore the stamped task. The returned
triple is (return value, worker after the call, the caller's task object after the
call). On failure nothing is touched. -/
def Worker.allocate_task (w : Worker) (t : Task) (now : ℚ) : Bool × Worker × Task :=
  if w.can_accept_task t then
    let stamped := t.allocate_to_worker w.worker_id now
    (true,
     { w with allocated_tasks := w.allocated_tasks ++ [stamped],
              available_memory := w.available_memory - t.gpu_memory_required },
     stamped)
  else
    (false, w, t)

/-- Embeds `Worker.complete_task`: if the task is in `allocated_tasks` (Python membership
by object identity; tasks are structurally distinct in every reachable state, so
structural equality coincides), remove its first occurrence, restore its memory and bump
the counter; otherwise do nothing. -/
def Worker.complete_task (w : Worker) (t : Task) : Worker :=
  if t ∈ w.allocated_tasks then
    { w with allocated_tasks := w.allocated_tasks.erase t,
             available_memory := w.available_memory + t.gpu_memory_required,
             completed_tasks := w.completed_tasks + 1 }
  else
    w

/-- The comparator realised by `self.queue.sort(key=lambda t: t.priority, reverse=True)`:
a stable sort into descending priority order. -/
def taskLE (a b : Task) : Bool := decide (b.priority ≤ a.priority)

/-- Embeds `TaskQueue.enqueue`: append, then stable-sort by descending priority
(CPython `list.sort` is stable; `List.mergeSort` is stable). -/
def qenqueue (q : List Task) (t : Task) : List Task := (q ++ [t]).mergeSort taskLE

/-- Embeds `TaskQueue.dequeue`: pop the head if non-empty, else return `None`
(never blocks). -/
def qdequeue : List Task → Option Task × List Task
  | [] => (none, [])
  | t :: rest => (some t, rest)

/-- The loop body of `RoundRobinAllocation.allocate`: inspect
`active_workers[current_index % len(active_workers)]`, advance the cursor, return the
worker if it can accept the task, else continue; `fuel` is the source's
`range(len(active_workers))` bound. -/
def rrScan (t : Task) (active : List Worker) : ℕ → ℕ → Option Worker × ℕ
  | cursor, 0 => (none, cursor)
  | cursor, fuel + 1 =>
    let w := active.getD (cursor % active.length) default
    if w.can_accept_task t then (some w, cursor + 1)
    else rrScan t active (cursor + 1) fuel

/-- Embeds `RoundRobinAllocation.allocate`: filter the worker list by
`w.is_active and w.can_accept_task(task)`, return `None` (cursor untouched) if the
filtered list is empty, else scan it starting at `current_index % len(active_workers)`.
The mutable `self.current_index` is threaded as the `cursor` argument/result. -/
def roundRobinAllocate (t : Task) (ws : List Worker) (cursor : ℕ) : Option Worker × ℕ :=
  let active := ws.filter fun w => w.is_active && w.can_accept_task t
  if active.isEmpty then (none, cursor)
  else rrScan t active cursor active.length

/-- The comparator of `available_workers.sort(key=lambda w: len(w.allocated_tasks))`. -/
def taskCountLE (a b : Worker) : Bool :=
  decide (a.allocated_tasks.length ≤ b.allocated_tasks.length)

/-- Embeds `LeastLoadedAllocation.allocate`: filter by `can_accept_task`, return `None`
if empty, else stable-sort by allocated-task count and return the first element. -/
def leastLoadedAllocate (t : Task) (ws : List Worker) : Option Worker :=
  let available := ws.filter fun w => w.can_accept_task t
  if available.isEmpty then none
  else (available.mergeSort taskCountLE).head?

/-- The comparator of `available_workers.sort(key=lambda w: w.available_memory)`. -/
def memLE (a b : Worker) : Bool := decide (a.available_memory ≤ b.available_memory)

/-- Embeds `BestFitAllocation.allocate`: filter by `can_accept_task`, return `None` if
empty, else stable-sort by `available_memory` ascending and return the first worker with
`available_memory >= gpu_memory_required`. -/
def bestFitAllocate (t : Task) (ws : List Worker) : Option Worker :=
  let available := ws.filter fun w => w.can_accept_task t
  if available.isEmpty then none
  else (available.mergeSort memLE).find? fun w =>
    decide (t.gpu_memory_required ≤ w.available_memory)

/-- Embeds `TaskAllocationSimulator._calculate_gini_coefficient`, with Python float
division modelled exactly in `ℚ` (at the integer inputs below the float computation is
exact). Source: return 0 for an empty or zero-sum vector; else sort ascending, form
`cumsum = Σ_i (n - i) * sorted[i]` over `enumerate(sorted_values)` and return
`(2*cumsum)/(n*sum) - (n+1)/n`. -/
def calculateGiniCoefficient (values : List ℤ) : ℚ :=
  if values = [] ∨ values.sum = 0 then 0
  else
    let sorted := values.mergeSort fun a b => decide (a ≤ b)
    let n := sorted.length
    let cumsum : ℤ := (sorted.enum.map fun p => ((n : ℤ) - (p.1 : ℤ)) * p.2).sum
    ((2 * cumsum : ℤ) : ℚ) / (((n : ℤ) * sorted.sum : ℤ) : ℚ) - ((n : ℚ) + 1) / (n : ℚ)

/-- Embeds `TaskAllocationSimulator._percentile`: 0 for empty data, else the element at
`int(len(data) * percentile / 100)` clamped to the last index (`int` truncation of a
non-negative float equals `ℕ` division here). -/
def percentileCalc (data : List ℚ) (p : ℕ) : ℚ :=
  if data.isEmpty then 0
  else data.getD (min (data.length * p / 100) (data.length - 1)) 0

/-- The module-level `total_tasks` global that `_check_acceptance_criteria` reads; it is
assigned only under `if __name__ == "__main__":`, always to `10000`, regardless of the
`--tasks` argument of the run. -/
def total_tasks_global : ℕ := 10000

/-- Embeds `TaskAllocationSimulator._check_acceptance_criteria`. The thresholds `0.2`,
`0.5` and `0.05` are literal constants in the source; the pending-task bound reads the
module-level global `total_tasks` (passed here explicitly as `total_tasks`), not the
run's task count. `latencies` is `self.allocation_latencies` (sorted in place by the
caller before the call, which does not affect the conditions used here). -/
def checkAcceptanceCriteria (fairness_score : ℚ) (latencies : List ℚ) (pending : ℕ)
    (total_tasks : ℕ) : Bool :=
  decide (fairness_score < 1/5) &&
  (if latencies.isEmpty then false else decide (percentileCalc latencies 95 < 1/2)) &&
  decide ((pending : ℚ) < (total_tasks : ℚ) * (1/20))

/-- The three strategy classes the script instantiates (`strategy_map` in `main`). -/
inductive Strategy where
  | roundRobin
  | leastLoaded
  | bestFit
deriving DecidableEq

/-- The simulator's mutable state: the worker pool, the task queue, the completed-task
history, the strategy object (with the round-robin cursor `current_index`, the only
mutable strategy state), and the generator's loop counter `nextId` (the source's loop
index `i`, which both numbers tasks and counts how many tasks were ever generated).
The `allocation_latencies` list feeds only the latency metrics and is not modelled. -/
structure SimState where
  workers : List Worker
  queue : List Task
  completed : List Task
  strategy : Strategy
  rrCursor : ℕ
  nextId : ℕ

/-- Embeds `TaskAllocationSimulator.__init__`: builds `num_workers` fresh workers
(ids 0.., each with 24576 memory), an empty queue and empty history. The source
performs no validation of any kind here. -/
def simInit (num_workers : ℕ) (strategy : Strategy) : SimState :=
  { workers := (List.range num_workers).map fun i => mkWorker i 24576,
    queue := [], completed := [], strategy := strategy, rrCursor := 0, nextId := 0 }

/-- Dispatch `self.strategy.allocate(task, self.workers)`; returns the selected worker
and the round-robin cursor after the call. -/
def stratSelect (s : SimState) (t : Task) : Option Worker × ℕ :=
  match s.strategy with
  | .roundRobin => roundRobinAllocate t s.workers s.rrCursor
  | .leastLoaded => (leastLoadedAllocate t s.workers, s.rrCursor)
  | .bestFit => (bestFitAllocate t s.workers, s.rrCursor)

/-- One atomic step of one of the three cooperative loops. The `asyncio` loops yield
only at their `await asyncio.sleep` points, so the code between two yields executes
atomically; each constructor is exactly one such block, and a run is an arbitrary
interleaving (an oracle list of these operations). Oracle data: `gen` carries the
`random.randint` priority, the `random.choice` memory size and the creation time;
`alloc` carries the allocation time; `complete` carries the indices of the
`random`-chosen worker and task (out-of-range indices model ticks where
`random.random() >= 0.1` chose not to complete anything). -/
inductive SimOp where
  | gen (priority mem : ℤ) (now : ℚ)
  | alloc (now : ℚ)
  | complete (wi ti : ℕ)

/-- Whether an operation is a generator-loop iteration. -/
def SimOp.isGen : SimOp → Bool
  | .gen _ _ _ => true
  | _ => false

/-- Embeds the three loop bodies of `TaskAllocationSimulator`
(`generate_tasks` iteration, `allocate_tasks` iteration, one worker's turn in
`process_tasks`). In `alloc`, the chosen worker object is mutated in place by the
source; here the entry at its position (`indexOf`, the object's position in
`self.workers`) is replaced by the updated worker. -/
def applySimOp (s : SimState) : SimOp → SimState
  | .gen p m now =>
    let t : Task := { task_id := s.nextId, priority := p, gpu_memory_required := m,
                      created_at := now }
    { s with queue := qenqueue s.queue t, nextId := s.nextId + 1 }
  | .alloc now =>
    match qdequeue s.queue with
    | (none, _) => s
    | (some t, q) =>
      match stratSelect s t with
      | (none, cur) => { s with queue := qenqueue q t, rrCursor := cur }
      | (some w, cur) =>
        let i := s.workers.indexOf w
        match w.allocate_task t now with
        | (true, wNew, _) =>
          { s with queue := q, workers := s.workers.set i wNew, rrCursor := cur }
        | (false, _, _) => { s with queue := qenqueue q t, rrCursor := cur }
  | .complete wi ti =>
    match s.workers[wi]? with
    | none => s
    | some w =>
      match w.allocated_tasks[ti]? with
      | none => s
      | some task =>
        { s with workers := s.workers.set wi (w.complete_task task),
                 completed := s.completed ++ [task] }

/-- `pending + Σ(allocated tasks per worker) + completed`: the three counts
`_calculate_metrics` reads (queue size, workers' allocated-set sizes, completed-task
history length). -/
def SimState.taskCount (s : SimState) : ℕ :=
  s.queue.length + (s.workers.map fun w => w.allocated_tasks.length).sum +
    s.completed.length

/-- The only run-time error the engine can raise under the configurations of claim C5:
`tasks_per_second = num_tasks / duration` divides by zero. -/
inductive RunError where
  | zeroDivision
deriving DecidableEq

/-- Embeds `TaskAllocationSimulator.generate_tasks` as a whole: with `duration = 0` the
very first statement `num_tasks / duration` raises `ZeroDivisionError` (after the run
has already started); otherwise every task is created (priorities and memory sizes are
oracle functions of the loop index, creation times set to the oracle `now`) and enqueued
in order. -/
def generateTasks (num_tasks duration : ℕ) (prio mem : ℕ → ℤ) (now : ℕ → ℚ)
    (q : List Task) : Except RunError (List Task) :=
  if duration = 0 then .error .zeroDivision
  else .ok ((List.range num_tasks).foldl (fun acc i =>
    qenqueue acc { task_id := i, priority := prio i, gpu_memory_required := mem i,
                   created_at := now i }) q)

/-- An operation on a single fresh worker, for claim C3: a call of `allocate_task` or of
`complete_task` with the given task (and, for allocation, the stamp time). -/
inductive WOp where
  | alloc (t : Task) (now : ℚ)
  | complete (t : Task)

/-- The task argument of a worker operation. -/
def WOp.task : WOp → Task
  | .alloc t _ => t
  | .complete t => t

/-- Apply one worker operation (discarding `allocate_task`'s return value and the
task's post-call state, which do not affect the worker). -/
def applyWOp (w : Worker) : WOp → Worker
  | .alloc t now => (w.allocate_task t now).2.1
  | .complete t => w.complete_task t

/-- A `TaskQueue` operation for claim C7. An `enq` carries the new task's priority;
the driver stamps each enqueued task with a fresh arrival index as its `task_id`
(modelling Python object identity and arrival order — the simulator's generator numbers
tasks in exactly this way). -/
inductive QOp where
  | enq (priority : ℤ)
  | deq

/-- Apply one queue operation to (queue contents, arrival counter). -/
def applyQOp : List Task × ℕ → QOp → List Task × ℕ
  | (q, c), .enq p =>
    (qenqueue q { task_id := c, priority := p, gpu_memory_required := 1024,
                  created_at := 0 }, c + 1)
  | (q, c), .deq => ((qdequeue q).2, c)

/-- Run a queue-operation sequence from the empty queue. -/
def runQueueOps (ops : List QOp) : List Task × ℕ := ops.foldl applyQOp ([], 0)

/-- Follows the wording of claim C4 (and spec §4.2 RoundRobin), for comparison with the
source's `roundRobinAllocate`: the scan inspects the FULL worker list in cyclic order
starting at the cursor, advances the cursor past each inspected worker, and returns the
first eligible worker found. -/
def rrClaimScan (t : Task) (ws : List Worker) : ℕ → ℕ → Option Worker × ℕ
  | cursor, 0 => (none, cursor)
  | cursor, fuel + 1 =>
    let w := ws.getD (cursor % ws.length) default
    if w.is_active && decide (t.gpu_memory_required ≤ w.available_memory) then
      (some w, cursor + 1)
    else rrClaimScan t ws (cursor + 1) fuel

/-- Follows the wording of claim C4: cursor over the full worker list; none after a full
cycle without an eligible worker. -/
def rrClaimAllocate (t : Task) (ws : List Worker) (cursor : ℕ) : Option Worker × ℕ :=
  if ws.isEmpty then (none, cursor)
  else rrClaimScan t ws cursor ws.length

/-- Follows the wording of claim C9: the eligible worker of smallest available capacity,
ties broken by identifier order (smallest `worker_id` first). -/
def bestFitClaimSelect (t : Task) (ws : List Worker) : Option Worker :=
  ((ws.filter fun w => w.can_accept_task t).mergeSort fun a b =>
    decide (a.available_memory < b.available_memory ∨
      (a.available_memory = b.available_memory ∧ a.worker_id ≤ b.worker_id))).head?

/-- Follows the wording of claim C8: pass exactly when fairness < 0.2, p95 latency
< 0.5 s and pending < 5 % of the task count of that run. -/
def testPassedClaim (fairness : ℚ) (latencies : List ℚ) (pending : ℕ)
    (runTotal : ℕ) : Bool :=
  decide (fairness < 1/5) && decide (percentileCalc latencies 95 < 1/2) &&
    decide ((pending : ℚ) < (runTotal : ℚ) * (1/20))

/-! ## Helper lemmas -/

lemma sum_map_erase {t : Task} {l : List Task} (h : t ∈ l) :
    ((l.erase t).map fun u => u.gpu_memory_required).sum + t.gpu_memory_required
      = (l.map fun u => u.gpu_memory_required).sum := by
  have hp := (List.perm_cons_erase h).map fun u => u.gpu_memory_required
  have hs := hp.sum_eq
  simp only [List.map_cons, List.sum_cons] at hs
  omega

/-- The inductive invariant of a single worker: capacity conservation, non-negative
available memory, and non-negative requirements of everything it holds. -/
def WInv (w : Worker) : Prop :=
  w.available_memory + (w.allocated_tasks.map fun u => u.gpu_memory_required).sum
      = w.gpu_memory
    ∧ 0 ≤ w.available_memory
    ∧ ∀ u ∈ w.allocated_tasks, 0 ≤ u.gpu_memory_required

lemma WInv_applyWOp {w : Worker} (hw : WInv w) (op : WOp)
    (hop : 0 ≤ op.task.gpu_memory_required) : WInv (applyWOp w op) := by
  obtain ⟨h1, h2, h3⟩ := hw
  cases op with
  | alloc t now =>
    simp only [WOp.task] at hop
    cases hc : w.can_accept_task t with
    | false => simpa [applyWOp, Worker.allocate_task, hc] using ⟨h1, h2, h3⟩
    | true =>
      have hreq : t.gpu_memory_required ≤ w.available_memory := by
        have hc' := hc
        simp only [Worker.can_accept_task, Bool.and_eq_true, decide_eq_true_eq] at hc'
        exact hc'.2
      simp only [applyWOp, Worker.allocate_task, hc, if_true]
      refine ⟨?_, ?_, ?_⟩
      · simp only [List.map_append, List.sum_append, List.map_cons, List.sum_cons,
          List.map_nil, List.sum_nil, Task.allocate_to_worker]
        omega
      · simp only []
        omega
      · intro u hu
        rcases List.mem_append.mp hu with hu | hu
        · exact h3 u hu
        · simp only [List.mem_singleton] at hu
          subst hu
          simpa [Task.allocate_to_worker] using hop
  | complete t =>
    by_cases hm : t ∈ w.allocated_tasks
    · have hs := sum_map_erase hm
      have ht : 0 ≤ t.gpu_memory_required := h3 t hm
      simp only [applyWOp, Worker.complete_task, if_pos hm]
      exact ⟨by dsimp only; omega, by dsimp only; omega,
        fun u hu => h3 u (List.mem_of_mem_erase hu)⟩
    · simpa [applyWOp, Worker.complete_task, hm] using ⟨h1, h2, h3⟩

lemma WInv_foldl (ops : List WOp)
    (hops : ∀ op ∈ ops, 0 ≤ op.task.gpu_memory_required) :
    ∀ w, WInv w → WInv (ops.foldl applyWOp w) := by
  induction ops with
  | nil => simp
  | cons op rest ih =>
    intro w hw
    simp only [List.foldl_cons]
    exact ih (fun o ho => hops o (List.mem_cons_of_mem _ ho)) _
      (WInv_applyWOp hw op (hops op (List.mem_cons_self _ _)))

lemma gpu_memory_applyWOp (w : Worker) (op : WOp) :
    (applyWOp w op).gpu_memory = w.gpu_memory := by
  cases op with
  | alloc t now =>
    simp only [applyWOp, Worker.allocate_task]
    split <;> rfl
  | complete t =>
    simp only [applyWOp, Worker.complete_task]
    split <;> rfl

lemma gpu_memory_foldl (ops : List WOp) :
    ∀ w, (ops.foldl applyWOp w).gpu_memory = w.gpu_memory := by
  induction ops with
  | nil => simp
  | cons op rest ih =>
    intro w
    simp only [List.foldl_cons]
    rw [ih, gpu_memory_applyWOp]

/-- Zeta-reduced form of `leastLoadedAllocate` (definitional). -/
lemma leastLoaded_def (t : Task) (ws : List Worker) :
    leastLoadedAllocate t ws
      = if (ws.filter fun w => w.can_accept_task t).isEmpty then none
        else ((ws.filter fun w => w.can_accept_task t).mergeSort taskCountLE).head? := rfl

/-- Zeta-reduced form of `bestFitAllocate` (definitional). -/
lemma bestFit_def (t : Task) (ws : List Worker) :
    bestFitAllocate t ws
      = if (ws.filter fun w => w.can_accept_task t).isEmpty then none
        else ((ws.filter fun w => w.can_accept_task t).mergeSort memLE).find? fun w =>
          decide (t.gpu_memory_required ≤ w.available_memory) := rfl

lemma getD_mem_of_lt {l : List Worker} {i : ℕ} (h : i < l.length) :
    l.getD i default ∈ l := by
  rw [List.getD_eq_getElem?_getD, List.getElem?_eq_getElem h, Option.getD_some]
  exact List.getElem_mem h

lemma can_accept_iff {w : Worker} {t : Task} :
    w.can_accept_task t = true
      ↔ (w.is_active = true ∧ t.gpu_memory_required ≤ w.available_memory) := by
  simp [Worker.can_accept_task]

lemma can_accept_false_iff {w : Worker} {t : Task} :
    w.can_accept_task t = false
      ↔ ¬(w.is_active = true ∧ t.gpu_memory_required ≤ w.available_memory) := by
  rw [← can_accept_iff]
  cases w.can_accept_task t <;> simp

/-- The round-robin filter predicate `is_active and can_accept_task` coincides with
`can_accept_task` (which already conjoins `is_active`). -/
lemma rr_filter_pred (w : Worker) (t : Task) :
    (w.is_active && w.can_accept_task t) = w.can_accept_task t := by
  cases h : w.is_active <;> simp [Worker.can_accept_task, h]

/-- When the eligible list is non-empty, the round-robin scan returns at its very first
probe (every filtered worker can accept the task), so the call returns the eligible
worker at `cursor % len` and advances the cursor by exactly one. -/
lemma roundRobin_eq_of_ne_nil (t : Task) (ws : List Worker) (c : ℕ)
    (h : (ws.filter fun w => w.is_active && w.can_accept_task t) ≠ []) :
    roundRobinAllocate t ws c
      = (some ((ws.filter fun w => w.is_active && w.can_accept_task t).getD
          (c % (ws.filter fun w => w.is_active && w.can_accept_task t).length) default),
         c + 1) := by
  have hlen : 0 < (ws.filter fun w => w.is_active && w.can_accept_task t).length :=
    List.length_pos.mpr h
  have hmem : (ws.filter fun w => w.is_active && w.can_accept_task t).getD
      (c % (ws.filter fun w => w.is_active && w.can_accept_task t).length) default
        ∈ ws.filter fun w => w.is_active && w.can_accept_task t :=
    getD_mem_of_lt (Nat.mod_lt _ hlen)
  have hacc : ((ws.filter fun w => w.is_active && w.can_accept_task t).getD
      (c % (ws.filter fun w => w.is_active && w.can_accept_task t).length)
        default).can_accept_task t = true := by
    have hp := (List.mem_filter.mp hmem).2
    simp only [Bool.and_eq_true] at hp
    exact hp.2
  obtain ⟨k, hk⟩ := Nat.exists_eq_succ_of_ne_zero (Nat.pos_iff_ne_zero.mp hlen)
  unfold roundRobinAllocate
  have hempty : (ws.filter fun w => w.is_active && w.can_accept_task t).isEmpty = false := by
    simpa [List.isEmpty_iff] using h
  simp only [hempty, Bool.false_eq_true, if_false, hk]
  unfold rrScan
  simp only [← hk, hacc, if_true]

lemma roundRobin_some {t : Task} {ws : List Worker} {c c' : ℕ} {w : Worker}
    (h : roundRobinAllocate t ws c = (some w, c')) :
    w ∈ ws ∧ w.can_accept_task t = true := by
  by_cases hA : (ws.filter fun x => x.is_active && x.can_accept_task t) = []
  · unfold roundRobinAllocate at h
    simp [List.isEmpty_iff, hA] at h
  · rw [roundRobin_eq_of_ne_nil t ws c hA] at h
    have hw : (ws.filter fun x => x.is_active && x.can_accept_task t).getD
        (c % (ws.filter fun x => x.is_active && x.can_accept_task t).length) default = w := by
      have := congrArg Prod.fst h
      simpa using this
    have hmem : w ∈ ws.filter fun x => x.is_active && x.can_accept_task t := by
      rw [← hw]
      exact getD_mem_of_lt (Nat.mod_lt _ (List.length_pos.mpr hA))
    have hp := (List.mem_filter.mp hmem).2
    simp only [Bool.and_eq_true] at hp
    exact ⟨(List.mem_filter.mp hmem).1, hp.2⟩

lemma roundRobin_none_iff (t : Task) (ws : List Worker) (c : ℕ) :
    (roundRobinAllocate t ws c).1 = none ↔ ∀ w ∈ ws, w.can_accept_task t = false := by
  by_cases hA : (ws.filter fun x => x.is_active && x.can_accept_task t) = []
  · unfold roundRobinAllocate
    simp only [List.isEmpty_iff, hA, if_true]
    rw [List.filter_eq_nil_iff] at hA
    simp only [rr_filter_pred] at hA
    simpa using fun w hw => by simpa using hA w hw
  · rw [roundRobin_eq_of_ne_nil t ws c hA]
    simp only []
    constructor
    · intro h
      exact absurd h (by simp)
    · intro h
      exfalso
      obtain ⟨w, hw⟩ := List.exists_mem_of_ne_nil _ hA
      have := (List.mem_filter.mp hw).2
      rw [rr_filter_pred] at this
      rw [h w (List.mem_filter.mp hw).1] at this
      exact Bool.false_ne_true this

lemma leastLoaded_some {t : Task} {ws : List Worker} {w : Worker}
    (h : leastLoadedAllocate t ws = some w) :
    w ∈ ws ∧ w.can_accept_task t = true := by
  rw [leastLoaded_def] at h
  by_cases hA : (ws.filter fun x => x.can_accept_task t) = []
  · simp [hA] at h
  · have hempty : (ws.filter fun x => x.can_accept_task t).isEmpty = false := by
      simpa [List.isEmpty_iff] using hA
    rw [hempty] at h
    simp only [Bool.false_eq_true, if_false] at h
    have hmem : w ∈ (ws.filter fun x => x.can_accept_task t).mergeSort taskCountLE :=
      List.mem_of_mem_head? (by rw [h]; exact rfl)
    rw [List.mem_mergeSort] at hmem
    exact ⟨(List.mem_filter.mp hmem).1, (List.mem_filter.mp hmem).2⟩

lemma leastLoaded_none_iff (t : Task) (ws : List Worker) :
    leastLoadedAllocate t ws = none ↔ ∀ w ∈ ws, w.can_accept_task t = false := by
  rw [leastLoaded_def]
  by_cases hA : (ws.filter fun x => x.can_accept_task t) = []
  · simp only [hA, List.isEmpty_nil, if_true]
    rw [List.filter_eq_nil_iff] at hA
    simpa using fun w hw => by simpa using hA w hw
  · have hempty : (ws.filter fun x => x.can_accept_task t).isEmpty = false := by
      simpa [List.isEmpty_iff] using hA
    rw [hempty]
    simp only [Bool.false_eq_true, if_false]
    constructor
    · intro h
      rw [List.head?_eq_none_iff] at h
      have hlen := congrArg List.length h
      simp only [List.length_mergeSort, List.length_nil, List.length_eq_zero] at hlen
      exact absurd hlen hA
    · intro h
      exfalso
      obtain ⟨w, hw⟩ := List.exists_mem_of_ne_nil _ hA
      have := (List.mem_filter.mp hw).2
      rw [h w (List.mem_filter.mp hw).1] at this
      exact Bool.false_ne_true this

lemma bestFit_eq_head (t : Task) (ws : List Worker)
    (hA : (ws.filter fun x => x.can_accept_task t) ≠ []) :
    bestFitAllocate t ws = ((ws.filter fun x => x.can_accept_task t).mergeSort memLE).head? := by
  rw [bestFit_def]
  have hempty : (ws.filter fun x => x.can_accept_task t).isEmpty = false := by
    simpa [List.isEmpty_iff] using hA
  rw [hempty]
  simp only [Bool.false_eq_true, if_false]
  have hS : ((ws.filter fun x => x.can_accept_task t).mergeSort memLE) ≠ [] := by
    intro hnil
    have hlen := congrArg List.length hnil
    simp only [List.length_mergeSort, List.length_nil, List.length_eq_zero] at hlen
    exact hA hlen
  obtain ⟨hd, tl, hcons⟩ := List.exists_cons_of_ne_nil hS
  rw [hcons]
  have hhd : hd ∈ ws.filter fun x => x.can_accept_task t := by
    rw [← @List.mem_mergeSort Worker memLE, hcons]
    exact List.mem_cons_self _ _
  have hcan := (List.mem_filter.mp hhd).2
  have : decide (t.gpu_memory_required ≤ hd.available_memory) = true := by
    simp only [Worker.can_accept_task, Bool.and_eq_true] at hcan
    exact hcan.2
  simp [this]

lemma bestFit_some {t : Task} {ws : List Worker} {w : Worker}
    (h : bestFitAllocate t ws = some w) :
    w ∈ ws ∧ w.can_accept_task t = true := by
  by_cases hA : (ws.filter fun x => x.can_accept_task t) = []
  · rw [bestFit_def] at h
    simp [hA] at h
  · rw [bestFit_eq_head t ws hA] at h
    have hmem : w ∈ (ws.filter fun x => x.can_accept_task t).mergeSort memLE :=
      List.mem_of_mem_head? (by rw [h]; exact rfl)
    rw [List.mem_mergeSort] at hmem
    exact ⟨(List.mem_filter.mp hmem).1, (List.mem_filter.mp hmem).2⟩

lemma bestFit_none_iff (t : Task) (ws : List Worker) :
    bestFitAllocate t ws = none ↔ ∀ w ∈ ws, w.can_accept_task t = false := by
  by_cases hA : (ws.filter fun x => x.can_accept_task t) = []
  · rw [bestFit_def]
    simp only [hA, List.isEmpty_nil, if_true]
    rw [List.filter_eq_nil_iff] at hA
    simpa using fun w hw => by simpa using hA w hw
  · rw [bestFit_eq_head t ws hA]
    constructor
    · intro h
      rw [List.head?_eq_none_iff] at h
      have hlen := congrArg List.length h
      simp only [List.length_mergeSort, List.length_nil, List.length_eq_zero] at hlen
      exact absurd hlen hA
    · intro h
      exfalso
      obtain ⟨w, hw⟩ := List.exists_mem_of_ne_nil _ hA
      have := (List.mem_filter.mp hw).2
      rw [h w (List.mem_filter.mp hw).1] at this
      exact Bool.false_ne_true this

/-- Stability of the head of a stable sort: for a duplicate-free list, the head of
`mergeSort` under a comparator realising `key a ≤ key b` is the FIRST element of the
original list attaining the minimum key `m`. -/
lemma head_mergeSort_eq_find_min {α : Type} [DecidableEq α] (key : α → ℤ)
    (le : α → α → Bool) (hle : ∀ a b, le a b = decide (key a ≤ key b))
    (l : List α) (hnd : l.Nodup) (m : ℤ)
    (hex : ∃ a ∈ l, key a = m) (hmin : ∀ a ∈ l, m ≤ key a) :
    (l.mergeSort le).head? = l.find? fun a => decide (key a = m) := by
  have hlef : le = fun a b => decide (key a ≤ key b) :=
    funext fun a => funext fun b => hle a b
  subst hlef
  have htrans : ∀ a b c : α, decide (key a ≤ key b) = true →
      decide (key b ≤ key c) = true → decide (key a ≤ key c) = true := by
    intro a b c hab hbc
    simp only [decide_eq_true_eq] at hab hbc ⊢
    omega
  have htotal : ∀ a b : α, (decide (key a ≤ key b) || decide (key b ≤ key a)) = true := by
    intro a b
    simp only [Bool.or_eq_true, decide_eq_true_eq]
    omega
  obtain ⟨a0, ha0, hka0⟩ := hex
  have hlne : l ≠ [] := List.ne_nil_of_mem ha0
  have hSne : l.mergeSort (fun a b => decide (key a ≤ key b)) ≠ [] := by
    intro hnil
    have hlen := congrArg List.length hnil
    simp only [List.length_mergeSort, List.length_nil, List.length_eq_zero] at hlen
    exact hlne hlen
  obtain ⟨h0, tl, hS⟩ := List.exists_cons_of_ne_nil hSne
  have hperm := List.mergeSort_perm l fun a b => decide (key a ≤ key b)
  have hsorted := List.sorted_mergeSort htrans htotal l
  rw [hS] at hperm hsorted
  have hh0mem : h0 ∈ l := hperm.mem_iff.mp (List.mem_cons_self _ _)
  have hkey : key h0 = m := by
    have h1 : m ≤ key h0 := hmin h0 hh0mem
    have ha0S : a0 ∈ h0 :: tl := hperm.mem_iff.mpr ha0
    rcases List.mem_cons.mp ha0S with rfl | htl
    · omega
    · have h2 := List.rel_of_pairwise_cons hsorted htl
      simp only [decide_eq_true_eq] at h2
      omega
  cases hf : l.find? fun a => decide (key a = m) with
  | none =>
    rw [List.find?_eq_none] at hf
    exact absurd (by simpa using hka0) (hf a0 ha0)
  | some f =>
    rw [hS]
    rcases List.find?_eq_some.mp hf with ⟨hpf, as, bs, hl, has⟩
    by_cases hfh : f = h0
    · rw [hfh]
      rfl
    · exfalso
      have hnotas : h0 ∉ as := by
        intro hmem
        have hpa := has h0 hmem
        simp [hkey] at hpa
      have hbs : h0 ∈ bs := by
        rw [hl] at hh0mem
        rcases List.mem_append.mp hh0mem with h | h
        · exact absurd h hnotas
        · rcases List.mem_cons.mp h with h | h
          · exact absurd h.symm hfh
          · exact h
      have hsub : List.Sublist [f, h0] l := by
        rw [hl]
        exact List.sublist_append_of_sublist_right
          (List.Sublist.cons₂ f (List.singleton_sublist.mpr hbs))
      have hlefh : decide (key f ≤ key h0) = true := by
        simp only [decide_eq_true_eq]
        have hkf : key f = m := by simpa using hpf
        omega
      have hsubS := List.pair_sublist_mergeSort htrans htotal hlefh hsub
      rw [hS] at hsubS
      have hnodupS : (h0 :: tl).Nodup := hperm.nodup_iff.mpr hnd
      cases hsubS with
      | cons _ hsub2 =>
        have : h0 ∈ tl := hsub2.subset (by simp)
        exact (List.nodup_cons.mp hnodupS).1 this
      | cons₂ _ => exact hfh rfl

/-! ## Claims -/

/-- C1. The fairness computation `_calculate_gini_coefficient` returns 0 on an all-equal
vector and on empty/zero-sum vectors, as claimed.  But on the maximally skewed vector
`[0,0,0,20]` it returns `-(n-1)/n = -3/4`, NOT the claimed `(n-1)/n = 3/4`: the source
sorts ascending yet applies the weights `n-i` of the DESCENDING formula, producing the
negation of the Gini coefficient, contradicting its own docstring ("0 = perfect
equality"), its result banner ("1.0 = completely unfair") and the acceptance criterion
`fairness_score < 0.2`, which the negated score passes for arbitrarily unfair
distributions. -/
theorem c1_gini_of_equal_empty_and_skewed :
    calculateGiniCoefficient [5, 5, 5, 5] = 0
      ∧ calculateGiniCoefficient [] = 0
      ∧ calculateGiniCoefficient [0, 0, 0] = 0
      ∧ calculateGiniCoefficient [0, 0, 0, 20] = -(3/4 : ℚ) := by
  refine ⟨?_, by simp [calculateGiniCoefficient], by simp [calculateGiniCoefficient], ?_⟩
  · have h : ([5, 5, 5, 5] : List ℤ).mergeSort (fun a b => decide (a ≤ b)) = [5, 5, 5, 5] :=
      List.mergeSort_of_sorted (by decide)
    simp only [calculateGiniCoefficient, h]
    norm_num [List.enum, List.enumFrom]
  · have h : ([0, 0, 0, 20] : List ℤ).mergeSort (fun a b => decide (a ≤ b)) = [0, 0, 0, 20] :=
      List.mergeSort_of_sorted (by decide)
    simp only [calculateGiniCoefficient, h]
    norm_num [List.enum, List.enumFrom]
    decide

/-- C3. Starting from a fresh worker of non-negative capacity, after any sequence of
`allocate_task` / `complete_task` calls whose tasks have non-negative resource
requirements (the data model makes `resourceRequired` positive), available capacity plus
the requirements of the held tasks equals the (unchanged) total capacity, and available
capacity stays within `[0, totalCapacity]`. -/
theorem c3_worker_capacity_invariant (id : ℕ) (gpu : ℤ) (hgpu : 0 ≤ gpu)
    (ops : List WOp) (hops : ∀ op ∈ ops, 0 ≤ op.task.gpu_memory_required) :
    (ops.foldl applyWOp (mkWorker id gpu)).available_memory +
        ((ops.foldl applyWOp (mkWorker id gpu)).allocated_tasks.map
          fun u => u.gpu_memory_required).sum
        = (ops.foldl applyWOp (mkWorker id gpu)).gpu_memory
      ∧ (ops.foldl applyWOp (mkWorker id gpu)).gpu_memory = gpu
      ∧ 0 ≤ (ops.foldl applyWOp (mkWorker id gpu)).available_memory
      ∧ (ops.foldl applyWOp (mkWorker id gpu)).available_memory ≤ gpu := by
  have hstart : WInv (mkWorker id gpu) := by
    refine ⟨by simp [mkWorker], by simpa [mkWorker] using hgpu, by simp [mkWorker]⟩
  obtain ⟨h1, h2, h3⟩ := WInv_foldl ops hops (mkWorker id gpu) hstart
  have hg : (ops.foldl applyWOp (mkWorker id gpu)).gpu_memory = gpu := by
    rw [gpu_memory_foldl]
    rfl
  have hsum : 0 ≤ ((ops.foldl applyWOp (mkWorker id gpu)).allocated_tasks.map
      fun u => u.gpu_memory_required).sum := by
    refine List.sum_nonneg ?_
    intro x hx
    obtain ⟨u, hu, rfl⟩ := List.mem_map.mp hx
    exact h3 u hu
  exact ⟨h1, hg, h2, by omega⟩

/-- Concrete worker-operation sequence used by the C3 witness: one successful
allocation of a 1024-unit task onto a fresh 24576-unit worker. -/
def wopsWitness : List WOp :=
  [WOp.alloc { task_id := 0, priority := 5, gpu_memory_required := 1024, created_at := 0 } 2]

theorem c3_worker_capacity_witness :
    ((wopsWitness.foldl applyWOp (mkWorker 9 24576)).available_memory +
        ((wopsWitness.foldl applyWOp (mkWorker 9 24576)).allocated_tasks.map
          fun u => u.gpu_memory_required).sum
        = (wopsWitness.foldl applyWOp (mkWorker 9 24576)).gpu_memory)
      ∧ (wopsWitness.foldl applyWOp (mkWorker 9 24576)).gpu_memory = 24576
      ∧ 0 ≤ (wopsWitness.foldl applyWOp (mkWorker 9 24576)).available_memory
      ∧ (wopsWitness.foldl applyWOp (mkWorker 9 24576)).available_memory ≤ 24576 :=
  c3_worker_capacity_invariant 9 24576 (by decide) wopsWitness (by decide)

/-- C5 counterexample. The claim says invalid configurations are rejected at
construction time and a run never starts.  In fact `TaskAllocationSimulator.__init__`
performs no validation whatsoever — constructing with zero workers succeeds and yields
an empty pool — and a zero duration is only hit once the run is already underway, when
`generate_tasks` evaluates `num_tasks / duration` and raises an (undescriptive)
`ZeroDivisionError`. -/
theorem c5_counterexample_no_construction_validation :
    (simInit 0 Strategy.roundRobin).workers = []
      ∧ generateTasks 5 0 (fun _ => 1) (fun _ => 1024) (fun _ => 0) []
          = Except.error RunError.zeroDivision :=
  ⟨rfl, rfl⟩

/-- C5 amended. The engine performs no construction-time validation: any worker count
(including zero) and any strategy object are accepted, and the pool simply has that many
workers.  A zero duration is not rejected at construction; it surfaces only as a
`ZeroDivisionError` raised inside `generate_tasks` after the run has started (and a
positive duration never raises).  Unknown strategy names are filtered solely by the CLI
argument parser, never by the engine. -/
theorem c5_amended_no_validation (n : ℕ) (strat : Strategy) (k d : ℕ)
    (prio mem : ℕ → ℤ) (now : ℕ → ℚ) (q : List Task) :
    (simInit n strat).workers.length = n
      ∧ (generateTasks k d prio mem now q = Except.error RunError.zeroDivision ↔ d = 0) := by
  constructor
  · simp [simInit]
  · constructor
    · intro h
      by_contra hd
      simp [generateTasks, hd] at h
    · intro h
      simp [generateTasks, h]

lemma length_qenqueue (q : List Task) (t : Task) :
    (qenqueue q t).length = q.length + 1 := by
  simp [qenqueue]

lemma stratSelect_mem {s : SimState} {t : Task} {w : Worker} {c : ℕ}
    (h : stratSelect s t = (some w, c)) : w ∈ s.workers := by
  obtain ⟨ws, q, comp, strat, cur, nid⟩ := s
  cases strat with
  | roundRobin => exact (roundRobin_some h).1
  | leastLoaded =>
    have h1 : leastLoadedAllocate t ws = some w := by
      have := congrArg Prod.fst h
      simpa [stratSelect] using this
    exact (leastLoaded_some h1).1
  | bestFit =>
    have h1 : bestFitAllocate t ws = some w := by
      have := congrArg Prod.fst h
      simpa [stratSelect] using this
    exact (bestFit_some h1).1

lemma sum_map_len_set (ws : List Worker) (i : ℕ) (x : Worker) (h : i < ws.length) :
    ((ws.set i x).map fun w => w.allocated_tasks.length).sum
        + (ws[i]).allocated_tasks.length
      = (ws.map fun w => w.allocated_tasks.length).sum + x.allocated_tasks.length := by
  induction ws generalizing i with
  | nil => simp at h
  | cons a as ih =>
    cases i with
    | zero =>
      simp only [List.set_cons_zero, List.map_cons, List.sum_cons, List.getElem_cons_zero]
      omega
    | succ n =>
      simp only [List.set_cons_succ, List.map_cons, List.sum_cons, List.getElem_cons_succ]
      have := ih n (Nat.lt_of_succ_lt_succ h)
      omega

lemma allocate_task_true_len {w : Worker} {t : Task} {now : ℚ} {wNew : Worker}
    {tNew : Task} (h : w.allocate_task t now = (true, wNew, tNew)) :
    wNew.allocated_tasks.length = w.allocated_tasks.length + 1 := by
  cases hc : w.can_accept_task t with
  | false => simp [Worker.allocate_task, hc] at h
  | true =>
    simp only [Worker.allocate_task, hc, if_true, Prod.mk.injEq, true_and] at h
    rw [← h.1]
    simp

lemma complete_task_len {w : Worker} {task : Task} (h : task ∈ w.allocated_tasks) :
    (w.complete_task task).allocated_tasks.length + 1 = w.allocated_tasks.length := by
  simp only [Worker.complete_task, if_pos h]
  rw [List.length_erase_of_mem h]
  have hne : w.allocated_tasks.length ≠ 0 := by
    intro h0
    rw [List.length_eq_zero] at h0
    rw [h0] at h
    simp at h
  omega

lemma taskCount_applySimOp (s : SimState) (op : SimOp) :
    (applySimOp s op).taskCount = s.taskCount + (if op.isGen then 1 else 0) := by
  obtain ⟨ws, q, comp, strat, cur, nid⟩ := s
  cases op with
  | gen p m now =>
    simp only [applySimOp, SimState.taskCount, SimOp.isGen, if_true]
    rw [length_qenqueue]
    omega
  | alloc now =>
    simp only [SimOp.isGen, Bool.false_eq_true, if_false]
    cases q with
    | nil => simp [applySimOp, qdequeue]
    | cons t rest =>
      rcases hsel : stratSelect ⟨ws, t :: rest, comp, strat, cur, nid⟩ t with ⟨sel, cur2⟩
      cases sel with
      | none =>
        simp only [applySimOp, qdequeue, hsel, SimState.taskCount]
        rw [length_qenqueue]
        simp only [List.length_cons]
        omega
      | some w =>
        have hmem : w ∈ ws := stratSelect_mem hsel
        have hi : ws.indexOf w < ws.length := List.indexOf_lt_length.mpr hmem
        have hgw : ws[ws.indexOf w] = w := List.getElem_indexOf hi
        rcases hal : w.allocate_task t now with ⟨ok, wNew, tNew⟩
        cases ok with
        | true =>
          simp only [applySimOp, qdequeue, hsel, hal, SimState.taskCount]
          have hsum := sum_map_len_set ws (ws.indexOf w) wNew hi
          rw [hgw] at hsum
          have hlen := allocate_task_true_len hal
          simp only [List.length_cons]
          omega
        | false =>
          simp only [applySimOp, qdequeue, hsel, hal, SimState.taskCount]
          rw [length_qenqueue]
          simp only [List.length_cons]
          omega
  | complete wi ti =>
    simp only [SimOp.isGen, Bool.false_eq_true, if_false]
    cases hw : ws[wi]? with
    | none => simp [applySimOp, hw]
    | some w =>
      cases ht : w.allocated_tasks[ti]? with
      | none => simp [applySimOp, hw, ht]
      | some task =>
        obtain ⟨hi, hwi⟩ := List.getElem?_eq_some_iff.mp hw
        obtain ⟨hti, htv⟩ := List.getElem?_eq_some_iff.mp ht
        have hmemt : task ∈ w.allocated_tasks := by
          rw [← htv]
          exact List.getElem_mem hti
        simp only [applySimOp, hw, ht, SimState.taskCount]
        have hsum := sum_map_len_set ws wi (w.complete_task task) hi
        rw [hwi] at hsum
        have hlen := complete_task_len hmemt
        simp only [List.length_append, List.length_cons, List.length_nil]
        omega

lemma taskCount_foldl (ops : List SimOp) :
    ∀ s : SimState, (ops.foldl applySimOp s).taskCount
      = s.taskCount + ops.countP fun op => op.isGen := by
  induction ops with
  | nil => simp
  | cons op rest ih =>
    intro s
    simp only [List.foldl_cons, List.countP_cons]
    rw [ih, taskCount_applySimOp]
    cases hop : op.isGen <;> simp [hop] <;> omega

lemma sum_len_mkWorkers (l : List ℕ) :
    ((l.map fun i => mkWorker i 24576).map fun w => w.allocated_tasks.length).sum = 0 := by
  induction l with
  | nil => rfl
  | cons a l ih => simpa [mkWorker] using ih

/-- C2. Task conservation: for every strategy, every pool size and every interleaving
of generator / allocator / completion steps (with arbitrary random draws), the queue
size plus the sum of the workers' allocated-set sizes plus the completed-history length
equals the number of tasks the generator has produced so far.  In particular it holds
at every observation point after generation completes.  (Each `SimOp` is one atomic
between-yields block of the source's cooperative loops, so the fold's intermediate
states are exactly the observable states of a run.) -/
theorem c2_task_conservation (strat : Strategy) (n : ℕ) (ops : List SimOp) :
    (ops.foldl applySimOp (simInit n strat)).taskCount
      = ops.countP fun op => op.isGen := by
  rw [taskCount_foldl]
  have h0 : (simInit n strat).taskCount = 0 := by
    simp only [simInit, SimState.taskCount, List.length_nil]
    rw [sum_len_mkWorkers]
  omega

/-- The strict rank order the queue maintains: higher priority first, ties broken by
earlier arrival (smaller `task_id`, the arrival stamp). -/
def taskRank (a b : Task) : Prop :=
  b.priority < a.priority ∨ (a.priority = b.priority ∧ a.task_id < b.task_id)

/-- Queue invariant: strictly rank-sorted, all arrival stamps below the counter, and
arrival stamps pairwise distinct. -/
def QInv (q : List Task) (c : ℕ) : Prop :=
  q.Pairwise taskRank ∧ (∀ u ∈ q, u.task_id < c)
    ∧ (q.map fun u => u.task_id).Nodup

lemma qenqueue_def (q : List Task) (t : Task) :
    qenqueue q t = (q ++ [t]).mergeSort taskLE := rfl

lemma taskLE_trans : ∀ a b c : Task, taskLE a b → taskLE b c → taskLE a c := by
  intro a b c hab hbc
  simp only [taskLE, decide_eq_true_eq] at hab hbc ⊢
  omega

lemma taskLE_total : ∀ a b : Task, (taskLE a b || taskLE b a) = true := by
  intro a b
  simp only [taskLE, Bool.or_eq_true, decide_eq_true_eq]
  omega

lemma pair_sublist_of_getElem {α : Type} (l : List α) (i j : ℕ)
    (hi : i < l.length) (hj : j < l.length) (hij : i < j) :
    List.Sublist [l[i], l[j]] l := by
  induction l generalizing i j with
  | nil => simp at hj
  | cons a as ih =>
    cases i with
    | zero =>
      cases j with
      | zero => omega
      | succ m =>
        simp only [List.getElem_cons_zero, List.getElem_cons_succ]
        exact List.Sublist.cons₂ a (List.singleton_sublist.mpr (List.getElem_mem _))
    | succ n =>
      cases j with
      | zero => omega
      | succ m =>
        simp only [List.getElem_cons_succ]
        exact List.Sublist.cons a
          (ih n m (Nat.lt_of_succ_lt_succ hi) (Nat.lt_of_succ_lt_succ hj)
            (Nat.lt_of_succ_lt_succ hij))

lemma sublist_pair_positions {α : Type} {a b : α} {l : List α}
    (h : List.Sublist [a, b] l) :
    ∃ i j, ∃ (hi : i < l.length) (hj : j < l.length),
      i < j ∧ l[i] = a ∧ l[j] = b := by
  induction l with
  | nil => cases h
  | cons x xs ih =>
    cases h with
    | cons _ h2 =>
      obtain ⟨i, j, hi, hj, hij, ha, hb⟩ := ih h2
      refine ⟨i + 1, j + 1, by simpa using hi, by simpa using hj, by omega, ?_, ?_⟩
      · simpa using ha
      · simpa using hb
    | cons₂ _ h2 =>
      have hbmem : b ∈ xs := List.singleton_sublist.mp h2
      obtain ⟨j, hj, hbj⟩ := List.getElem_of_mem hbmem
      refine ⟨0, j + 1, by simp, by simpa using hj, by omega, rfl, by simpa using hbj⟩

lemma QInv_qenqueue {q : List Task} {c : ℕ} (h : QInv q c) (t : Task)
    (hid : t.task_id = c) : QInv (qenqueue q t) (c + 1) := by
  obtain ⟨hpair, hlt, hnd⟩ := h
  rw [qenqueue_def]
  have hperm := List.mergeSort_perm (q ++ [t]) taskLE
  have hndq : ((q ++ [t]).map fun u => u.task_id).Nodup := by
    rw [List.map_append]
    refine List.Nodup.append hnd (by simp) ?_
    intro x hx hx2
    simp only [List.map_cons, List.map_nil, List.mem_singleton] at hx2
    obtain ⟨u, hu, rfl⟩ := List.mem_map.mp hx
    have := hlt u hu
    omega
  have hndS : (((q ++ [t]).mergeSort taskLE).map fun u => u.task_id).Nodup :=
    ((hperm.map fun u => u.task_id).nodup_iff).mpr hndq
  have hndS' : ((q ++ [t]).mergeSort taskLE).Nodup := List.Nodup.of_map _ hndS
  have hsorted := List.sorted_mergeSort taskLE_trans taskLE_total (q ++ [t])
  have hndq' : (q ++ [t]).Nodup := List.Nodup.of_map _ hndq
  have hqnd : q.Nodup := List.Nodup.of_map _ hnd
  refine ⟨?_, ?_, hndS⟩
  · set S := (q ++ [t]).mergeSort taskLE with hSdef
    rw [List.pairwise_iff_getElem]
    intro i j hi hj hij
    rw [List.pairwise_iff_getElem] at hsorted
    have hle := hsorted i j hi hj hij
    simp only [taskLE, decide_eq_true_eq] at hle
    by_cases hplt : (S[j]).priority < (S[i]).priority
    · exact Or.inl hplt
    · have hpeq : (S[i]).priority = (S[j]).priority := by omega
      refine Or.inr ⟨hpeq, ?_⟩
      have hane : S[i] ≠ S[j] := by
        intro heq
        have := (hndS'.getElem_inj_iff).mp heq
        omega
      have hidne : (S[i]).task_id ≠ (S[j]).task_id := by
        intro heq
        have hi2 : i < (S.map fun u => u.task_id).length := by simpa using hi
        have hj2 : j < (S.map fun u => u.task_id).length := by simpa using hj
        have h1 : (S.map fun u => u.task_id)[i] = (S.map fun u => u.task_id)[j] := by
          simp only [List.getElem_map]
          exact heq
        have := (hndS.getElem_inj_iff).mp h1
        omega
      by_contra hnab
      have hba : (S[j]).task_id < (S[i]).task_id := by omega
      have hamem : S[i] ∈ q ++ [t] := hperm.mem_iff.mp (List.getElem_mem hi)
      have hbmem : S[j] ∈ q ++ [t] := hperm.mem_iff.mp (List.getElem_mem hj)
      -- build the pair [S[j], S[i]] as a sublist of q ++ [t]
      have hsub : List.Sublist [S[j], S[i]] (q ++ [t]) := by
        rcases List.mem_append.mp hbmem with hbq | hbt
        · rcases List.mem_append.mp hamem with haq | hat
          · -- both in q: S[j] must come first there
            obtain ⟨ia, hia, hga⟩ := List.getElem_of_mem haq
            obtain ⟨ib, hib, hgb⟩ := List.getElem_of_mem hbq
            have hne : ib ≠ ia := by
              intro heq
              subst heq
              exact hane (hga.symm.trans hgb)
            have hord : ib < ia := by
              rcases Nat.lt_or_ge ia ib with hlt2 | hge
              · exfalso
                rw [List.pairwise_iff_getElem] at hpair
                have hr := hpair ia ib hia hib hlt2
                rw [hga, hgb] at hr
                rcases hr with hr | hr
                · omega
                · omega
              · omega
            have hps := pair_sublist_of_getElem q ib ia hib hia hord
            simp only [hga, hgb] at hps
            exact hps.trans (List.sublist_append_left q [t])
          · -- S[i] = t, S[j] ∈ q
            rw [List.mem_singleton] at hat
            have h1 : List.Sublist [S[j]] q := List.singleton_sublist.mpr hbq
            have h2 : List.Sublist [S[i]] [t] := by
              rw [hat]
            exact h1.append h2
        · -- S[j] = t: impossible, its stamp is maximal
          rw [List.mem_singleton] at hbt
          exfalso
          rcases List.mem_append.mp hamem with haq | hat
          · have := hlt _ haq
            rw [hbt] at hba
            omega
          · rw [List.mem_singleton] at hat
            apply hane
            rw [hat, hbt]
      have hlef : taskLE S[j] S[i] := by
        simp only [taskLE, decide_eq_true_eq]
        omega
      have hsubS := List.pair_sublist_mergeSort taskLE_trans taskLE_total hlef hsub
      rw [← hSdef] at hsubS
      obtain ⟨i2, j2, hi2, hj2, hij2, hg1, hg2⟩ := sublist_pair_positions hsubS
      have hj2i : i2 = j := (hndS'.getElem_inj_iff).mp hg1
      have hi2j : j2 = i := (hndS'.getElem_inj_iff).mp hg2
      omega
  · intro u hu
    rcases List.mem_append.mp (hperm.mem_iff.mp hu) with h1 | h1
    · have := hlt u h1
      omega
    · rw [List.mem_singleton] at h1
      rw [h1, hid]
      omega

lemma QInv_applyQOp {q : List Task} {c : ℕ} (h : QInv q c) (op : QOp) :
    QInv (applyQOp (q, c) op).1 (applyQOp (q, c) op).2 := by
  cases op with
  | enq p => exact QInv_qenqueue h _ rfl
  | deq =>
    cases q with
    | nil => exact h
    | cons t rest =>
      obtain ⟨hpair, hlt, hnd⟩ := h
      refine ⟨hpair.of_cons, fun u hu => hlt u (List.mem_cons_of_mem _ hu), ?_⟩
      rw [List.map_cons] at hnd
      exact (List.nodup_cons.mp hnd).2

lemma QInv_runQueueOps (ops : List QOp) :
    QInv (runQueueOps ops).1 (runQueueOps ops).2 := by
  suffices h : ∀ p : List Task × ℕ, QInv p.1 p.2 →
      QInv (ops.foldl applyQOp p).1 (ops.foldl applyQOp p).2 by
    exact h ([], 0) ⟨List.Pairwise.nil, by simp, by simp⟩
  induction ops with
  | nil => exact fun p hp => hp
  | cons op rest ih =>
    intro p hp
    simp only [List.foldl_cons]
    obtain ⟨q, c⟩ := p
    exact ih _ (QInv_applyQOp hp op)

/-- C7. For every sequence of enqueue/dequeue operations starting from the empty queue
(each enqueued task stamped with a fresh arrival index as its identity), a dequeue on
the empty queue returns the no-task indicator without touching the queue — the source
never blocks, it simply returns `None` — and otherwise dequeue removes and returns a
pending task of maximal priority that is the earliest-arrived among the pending tasks
of that priority: every remaining task has strictly lower priority or equal priority
and a later arrival stamp. -/
theorem c7_queue_priority_stable (ops : List QOp) :
    ((runQueueOps ops).1 = [] → qdequeue (runQueueOps ops).1 = (none, []))
      ∧ ∀ t rest, qdequeue (runQueueOps ops).1 = (some t, rest) →
          (runQueueOps ops).1 = t :: rest
            ∧ ∀ u ∈ rest,
                u.priority < t.priority
                  ∨ (u.priority = t.priority ∧ t.task_id < u.task_id) := by
  obtain ⟨hpair, -, -⟩ := QInv_runQueueOps ops
  constructor
  · intro h
    rw [h]
    rfl
  · intro t rest h
    cases hq : (runQueueOps ops).1 with
    | nil =>
      rw [hq] at h
      simp [qdequeue] at h
    | cons t0 rest0 =>
      rw [hq] at h
      simp only [qdequeue, Prod.mk.injEq, Option.some.injEq] at h
      obtain ⟨rfl, rfl⟩ := h
      rw [hq] at hpair
      refine ⟨rfl, ?_⟩
      intro u hu
      have hr := List.rel_of_pairwise_cons hpair hu
      unfold taskRank at hr
      rcases hr with hr | hr
      · exact Or.inl hr
      · exact Or.inr ⟨hr.1.symm, hr.2⟩

/-- C7 witness scenario: the task enqueued first, with priority 1 (arrival stamp 0). -/
def c7TaskA : Task :=
  { task_id := 0, priority := 1, gpu_memory_required := 1024, created_at := 0 }

/-- C7 witness scenario: the task enqueued second, priority 5 (arrival stamp 1). -/
def c7TaskB : Task :=
  { task_id := 1, priority := 5, gpu_memory_required := 1024, created_at := 0 }

/-- C7 witness scenario: the task enqueued third, priority 5 (arrival stamp 2). -/
def c7TaskC : Task :=
  { task_id := 2, priority := 5, gpu_memory_required := 1024, created_at := 0 }

unseal List.merge List.mergeSort in
theorem c7_queue_priority_witness :
    (runQueueOps [QOp.enq 1, QOp.enq 5, QOp.enq 5]).1 = c7TaskB :: [c7TaskC, c7TaskA]
      ∧ ∀ u ∈ [c7TaskC, c7TaskA],
          u.priority < c7TaskB.priority
            ∨ (u.priority = c7TaskB.priority ∧ c7TaskB.task_id < u.task_id) :=
  (c7_queue_priority_stable [QOp.enq 1, QOp.enq 5, QOp.enq 5]).2 c7TaskB
    [c7TaskC, c7TaskA] (by decide)

/-- C8 counterexample. For a run with 10 tasks, fairness 0, one recorded latency of
0.1 s and one pending task, the claim's predicate (pending below 5 % of THAT RUN's
total, i.e. 1 < 0.5) fails, but the source's `test_passed` is true: its pending bound
reads the module-level `total_tasks` global, which is 10000 whenever the script runs,
so it checks 1 < 500. -/
theorem c8_counterexample_run_total_ignored :
    checkAcceptanceCriteria 0 [1/10] 1 total_tasks_global = true
      ∧ testPassedClaim 0 [1/10] 1 10 = false := by
  constructor
  · norm_num [checkAcceptanceCriteria, percentileCalc, total_tasks_global]
  · norm_num [testPassedClaim, percentileCalc]

/-- C8 amended. `test_passed` is true exactly when the fairness score is below the
constant 0.2, the latency history is NON-EMPTY with p95 below the constant 0.5 s, and
the pending count is below 5 % of the module-level `total_tasks` global — 500 tasks
whenever the script runs, regardless of the run's own task count.  All three thresholds
are hard-coded literals in `_check_acceptance_criteria`, not configurable parameters. -/
theorem c8_amended_hardcoded_thresholds (f : ℚ) (lat : List ℚ) (p : ℕ) :
    checkAcceptanceCriteria f lat p total_tasks_global
      = (decide (f < 1/5) && (!lat.isEmpty && decide (percentileCalc lat 95 < 1/2))
          && decide ((p : ℚ) < 500)) := by
  unfold checkAcceptanceCriteria total_tasks_global
  have h500 : ((10000 : ℕ) : ℚ) * (1/20) = 500 := by norm_num
  rw [h500]
  cases hemp : lat.isEmpty <;> simp [hemp]

/-- The task of the C4 scenario: it needs 5 units. -/
def c4Task : Task :=
  { task_id := 0, priority := 1, gpu_memory_required := 5, created_at := 0 }

/-- C4 scenario, worker at position 0: active but out of capacity (ineligible). -/
def c4wa : Worker :=
  { worker_id := 0, gpu_memory := 10, available_memory := 0, allocated_tasks := [],
    completed_tasks := 0, is_active := true }

/-- C4 scenario, worker at position 1: eligible. -/
def c4wb : Worker :=
  { worker_id := 1, gpu_memory := 10, available_memory := 10, allocated_tasks := [],
    completed_tasks := 0, is_active := true }

/-- C4 scenario, worker at position 2: eligible. -/
def c4wc : Worker :=
  { worker_id := 2, gpu_memory := 10, available_memory := 10, allocated_tasks := [],
    completed_tasks := 0, is_active := true }

/-- C4 counterexample. The source keeps its cursor over the FILTERED eligible list, not
over the full worker list as the claim says.  With workers [a(ineligible), b, c] and
cursor 1, the source indexes `active_workers = [b, c]` at `1 % 2` and returns `c`,
whereas the claim's algorithm (scan the full list cyclically from index 1, first
eligible worker) returns `b`. -/
theorem c4_counterexample_cursor_list :
    (roundRobinAllocate c4Task [c4wa, c4wb, c4wc] 1).1 = some c4wc
      ∧ (rrClaimAllocate c4Task [c4wa, c4wb, c4wc] 1).1 = some c4wb
      ∧ c4wc ≠ c4wb := by
  refine ⟨by decide, by decide, by decide⟩

/-- C4 amended. `RoundRobinAllocation.allocate` keeps its rotation cursor over the list
of currently ELIGIBLE workers (the result of filtering the full list): if no worker is
eligible it returns none and leaves the cursor untouched; otherwise it returns the
eligible worker at position `cursor % (number of eligible workers)` and advances the
cursor by exactly one (the scan always succeeds at its first probe, because every
worker in the filtered list can accept the task). -/
theorem c4_amended_cursor_over_eligible (t : Task) (ws : List Worker) (c : ℕ) :
    ((ws.filter fun w => w.is_active && w.can_accept_task t) = [] →
        roundRobinAllocate t ws c = (none, c))
      ∧ ∀ active, active = ws.filter (fun w => w.is_active && w.can_accept_task t) →
          active ≠ [] →
          roundRobinAllocate t ws c
            = (some (active.getD (c % active.length) default), c + 1) := by
  constructor
  · intro h
    unfold roundRobinAllocate
    simp [h]
  · rintro active rfl h
    exact roundRobin_eq_of_ne_nil t ws c h

theorem c4_amended_witness :
    roundRobinAllocate c4Task [c4wa, c4wb, c4wc] 1 = (some c4wc, 2) := by
  have h := (c4_amended_cursor_over_eligible c4Task [c4wa, c4wb, c4wc] 1).2
    ([c4wa, c4wb, c4wc].filter fun w => w.is_active && w.can_accept_task c4Task)
    rfl (by decide)
  simpa using h

/-- The task of the C6 witness scenario. -/
def c6Task : Task :=
  { task_id := 0, priority := 1, gpu_memory_required := 5, created_at := 0 }

/-- The (eligible) worker of the C6 witness scenario. -/
def c6Worker : Worker :=
  { worker_id := 4, gpu_memory := 10, available_memory := 10, allocated_tasks := [],
    completed_tasks := 0, is_active := true }

/-- C6. Common strategy contract: every variant returns only a worker from the given
list that is active and has enough available capacity, and returns none exactly when no
such worker exists.  The non-mutation part of the claim is reflected in the embedding
itself: the source methods write no attribute of any worker or task (they only build,
sort and read a fresh filtered list), so the strategies embed as pure selection
functions (the round-robin cursor, the strategy's own state, is threaded explicitly). -/
theorem c6_strategy_contract (t : Task) (ws : List Worker) (c : ℕ) :
    (∀ w c', roundRobinAllocate t ws c = (some w, c') →
        w ∈ ws ∧ w.is_active = true ∧ t.gpu_memory_required ≤ w.available_memory)
      ∧ ((roundRobinAllocate t ws c).1 = none ↔
          ∀ w ∈ ws, ¬(w.is_active = true ∧ t.gpu_memory_required ≤ w.available_memory))
      ∧ (∀ w, leastLoadedAllocate t ws = some w →
        w ∈ ws ∧ w.is_active = true ∧ t.gpu_memory_required ≤ w.available_memory)
      ∧ (leastLoadedAllocate t ws = none ↔
          ∀ w ∈ ws, ¬(w.is_active = true ∧ t.gpu_memory_required ≤ w.available_memory))
      ∧ (∀ w, bestFitAllocate t ws = some w →
        w ∈ ws ∧ w.is_active = true ∧ t.gpu_memory_required ≤ w.available_memory)
      ∧ (bestFitAllocate t ws = none ↔
          ∀ w ∈ ws, ¬(w.is_active = true ∧ t.gpu_memory_required ≤ w.available_memory)) := by
  refine ⟨?_, ?_, ?_, ?_, ?_, ?_⟩
  · intro w c' h
    obtain ⟨hmem, hacc⟩ := roundRobin_some h
    exact ⟨hmem, can_accept_iff.mp hacc⟩
  · constructor
    · intro h w hw
      exact can_accept_false_iff.mp ((roundRobin_none_iff t ws c).mp h w hw)
    · intro h
      exact (roundRobin_none_iff t ws c).mpr fun w hw => can_accept_false_iff.mpr (h w hw)
  · intro w h
    obtain ⟨hmem, hacc⟩ := leastLoaded_some h
    exact ⟨hmem, can_accept_iff.mp hacc⟩
  · constructor
    · intro h w hw
      exact can_accept_false_iff.mp ((leastLoaded_none_iff t ws).mp h w hw)
    · intro h
      exact (leastLoaded_none_iff t ws).mpr fun w hw => can_accept_false_iff.mpr (h w hw)
  · intro w h
    obtain ⟨hmem, hacc⟩ := bestFit_some h
    exact ⟨hmem, can_accept_iff.mp hacc⟩
  · constructor
    · intro h w hw
      exact can_accept_false_iff.mp ((bestFit_none_iff t ws).mp h w hw)
    · intro h
      exact (bestFit_none_iff t ws).mpr fun w hw => can_accept_false_iff.mpr (h w hw)

unseal List.merge List.mergeSort in
theorem c6_strategy_contract_witness :
    (c6Worker ∈ [c6Worker] ∧ c6Worker.is_active = true
        ∧ c6Task.gpu_memory_required ≤ c6Worker.available_memory)
      ∧ (c6Worker ∈ [c6Worker] ∧ c6Worker.is_active = true
        ∧ c6Task.gpu_memory_required ≤ c6Worker.available_memory)
      ∧ (c6Worker ∈ [c6Worker] ∧ c6Worker.is_active = true
        ∧ c6Task.gpu_memory_required ≤ c6Worker.available_memory) :=
  ⟨(c6_strategy_contract c6Task [c6Worker] 0).1 c6Worker 1 (by decide),
   (c6_strategy_contract c6Task [c6Worker] 0).2.2.1 c6Worker (by decide),
   (c6_strategy_contract c6Task [c6Worker] 0).2.2.2.2.1 c6Worker (by decide)⟩

/-- The task of the C9 counterexample scenario: it needs 2 units. -/
def c9Task : Task :=
  { task_id := 0, priority := 1, gpu_memory_required := 2, created_at := 0 }

/-- C9 counterexample, worker at position 0: identifier 1, 5 units available. -/
def c9FirstWorker : Worker :=
  { worker_id := 1, gpu_memory := 5, available_memory := 5, allocated_tasks := [],
    completed_tasks := 0, is_active := true }

/-- C9 counterexample, worker at position 1: identifier 0, 5 units available. -/
def c9SecondWorker : Worker :=
  { worker_id := 0, gpu_memory := 5, available_memory := 5, allocated_tasks := [],
    completed_tasks := 0, is_active := true }

unseal List.merge List.mergeSort in
/-- C9 counterexample. Two eligible workers tie at 5 available units; the claim says
the tie goes to identifier order (the worker with id 0), but the source's stable sort
keeps the tied workers in LIST order, returning the one at position 0, which has the
larger identifier 1. -/
theorem c9_counterexample_tie_by_position :
    bestFitAllocate c9Task [c9FirstWorker, c9SecondWorker] = some c9FirstWorker
      ∧ bestFitClaimSelect c9Task [c9FirstWorker, c9SecondWorker] = some c9SecondWorker
      ∧ c9FirstWorker.worker_id ≠ c9SecondWorker.worker_id := by
  refine ⟨by decide, by decide, by decide⟩

/-- C9 amended. BestFit returns the eligible worker with the smallest available
capacity at least the task's requirement, ties broken by EARLIEST POSITION in the given
worker list (the stable sort preserves list order among equal capacities); for the
simulator's pool, built in identifier order, this coincides with identifier order.
Formally: for a duplicate-free pool whose eligible minimum capacity is `m`, the call
returns the first eligible worker with capacity `m` (so with eligible capacities
[2,5,10] and a task needing 2, the capacity-2 worker). -/
theorem c9_amended_bestfit_first_minimal (t : Task) (ws : List Worker)
    (hnd : ws.Nodup) (m : ℤ)
    (hex : ∃ a ∈ ws.filter (fun w => w.can_accept_task t), a.available_memory = m)
    (hmin : ∀ a ∈ ws.filter (fun w => w.can_accept_task t), m ≤ a.available_memory) :
    bestFitAllocate t ws
      = (ws.filter fun w => w.can_accept_task t).find? fun a =>
          decide (a.available_memory = m) := by
  have hA : (ws.filter fun x => x.can_accept_task t) ≠ [] := by
    obtain ⟨a, ha, _⟩ := hex
    exact List.ne_nil_of_mem ha
  rw [bestFit_eq_head t ws hA]
  exact head_mergeSort_eq_find_min (fun w : Worker => w.available_memory) memLE
    (fun a b => rfl) (ws.filter fun w => w.can_accept_task t) (hnd.filter _) m hex hmin

/-- C9 witness scenario: eligible capacities [2, 5, 10], identifiers in list order. -/
def c9TightWorker : Worker :=
  { worker_id := 0, gpu_memory := 2, available_memory := 2, allocated_tasks := [],
    completed_tasks := 0, is_active := true }

/-- C9 witness scenario: the capacity-5 worker. -/
def c9MidWorker : Worker :=
  { worker_id := 1, gpu_memory := 5, available_memory := 5, allocated_tasks := [],
    completed_tasks := 0, is_active := true }

/-- C9 witness scenario: the capacity-10 worker. -/
def c9BigWorker : Worker :=
  { worker_id := 2, gpu_memory := 10, available_memory := 10, allocated_tasks := [],
    completed_tasks := 0, is_active := true }

theorem c9_amended_bestfit_witness :
    bestFitAllocate c9Task [c9TightWorker, c9MidWorker, c9BigWorker]
      = ([c9TightWorker, c9MidWorker, c9BigWorker].filter fun w =>
          w.can_accept_task c9Task).find? fun a => decide (a.available_memory = 2) :=
  c9_amended_bestfit_first_minimal c9Task [c9TightWorker, c9MidWorker, c9BigWorker]
    (by decide) 2 (by decide) (by decide)

/-- C10. A failed allocation is atomic: when `can_accept_task` is false,
`allocate_task` returns `False` and neither the worker (its `allocated_tasks`,
`available_memory`, `completed_tasks`) nor the task (its `worker_id`, `allocated_at`)
is changed. -/
theorem c10_failed_allocation_is_atomic (w : Worker) (t : Task) (now : ℚ)
    (h : w.can_accept_task t = false) :
    w.allocate_task t now = (false, w, t) := by
  simp [Worker.allocate_task, h]

theorem c10_failed_allocation_witness :
    (mkWorker 3 2048).allocate_task
        { task_id := 0, priority := 1, gpu_memory_required := 4096, created_at := 0 }
        (7/2)
      = (false, mkWorker 3 2048,
          { task_id := 0, priority := 1, gpu_memory_required := 4096, created_at := 0 }) :=
  c10_failed_allocation_is_atomic _ _ _ (by decide)

end TaskAlloc
